import Mathlib

/-!
Verification of the two traffic-optimization solver scripts
(`signal-solver.py` and `path-rerouting-solver.py`).

The numeric values (traffic flows, signal timings, distances, costs) are
modelled as rationals; Python lists become Lean lists, and the 2^n x 2^n
numpy matrix becomes a total function `ℕ → ℕ → ℚ` that is zero outside the
entries the code writes (exactly as `np.zeros` initializes it).  In-place
updates `m[i][j] += v` become functional updates, and `for` loops become
folds over `List.range`.
-/

namespace TrafficQAOA

/-- One iteration of the loop body of `create_cost_hamiltonian`
(signal-solver.py): add the waiting time `signal_timings[i] * traffic_flows[i]`
at the diagonal entry `(i, i)`, then add the emergency penalty 100 at the same
entry when `emergency_flags[i]` is set. -/
def costStep (traffic_flows signal_timings : List ℚ) (emergency_flags : List Bool)
    (M : ℕ → ℕ → ℚ) (i : ℕ) : ℕ → ℕ → ℚ :=
  let waiting_time := signal_timings.getD i 0 * traffic_flows.getD i 0
  let M1 : ℕ → ℕ → ℚ := fun r c => if r = i ∧ c = i then M r c + waiting_time else M r c
  if emergency_flags.getD i false then
    fun r c => if r = i ∧ c = i then M1 r c + 100 else M1 r c
  else M1

/-- Function `create_cost_hamiltonian` from signal-solver.py: starting from the zero
matrix, run the loop body for `i` in `range(n)` where `n = len(traffic_flows)`. -/
def create_cost_hamiltonian (traffic_flows signal_timings : List ℚ)
    (emergency_flags : List Bool) : ℕ → ℕ → ℚ :=
  (List.range traffic_flows.length).foldl
    (costStep traffic_flows signal_timings emergency_flags) (fun _ _ => 0)

/-- The total amount the loop body adds at diagonal entry `i`. -/
def costDelta (traffic_flows signal_timings : List ℚ) (emergency_flags : List Bool)
    (i : ℕ) : ℚ :=
  signal_timings.getD i 0 * traffic_flows.getD i 0 +
    (if emergency_flags.getD i false then 100 else 0)

lemma costStep_apply (fs ts : List ℚ) (es : List Bool) (M : ℕ → ℕ → ℚ) (i r c : ℕ) :
    costStep fs ts es M i r c =
      if r = i ∧ c = i then M r c + costDelta fs ts es i else M r c := by
  unfold costStep costDelta
  rw [apply_ite (fun F : ℕ → ℕ → ℚ => F r c)]
  split_ifs <;> simp_all <;> ring

lemma range_foldl_costStep (fs ts : List ℚ) (es : List Bool) (n r c : ℕ) :
    (List.range n).foldl (costStep fs ts es) (fun _ _ => 0) r c =
      if r = c ∧ r < n then costDelta fs ts es r else 0 := by
  induction n with
  | zero => simp
  | succ n ih =>
    rw [List.range_succ, List.foldl_append]
    simp only [List.foldl_cons, List.foldl_nil, costStep_apply]
    by_cases h : r = n ∧ c = n
    · obtain ⟨hr, hc⟩ := h
      subst hr; subst hc
      simp [ih]
    · rw [if_neg h, ih]
      by_cases hrc : r = c
      · subst hrc
        have hrn : r ≠ n := by rintro rfl; exact h ⟨rfl, rfl⟩
        have : r < n + 1 ↔ r < n := by omega
        simp [this]
      · simp [hrc]

lemma create_cost_hamiltonian_apply (fs ts : List ℚ) (es : List Bool) (r c : ℕ) :
    create_cost_hamiltonian fs ts es r c =
      if r = c ∧ r < fs.length then costDelta fs ts es r else 0 := by
  unfold create_cost_hamiltonian
  exact range_foldl_costStep fs ts es fs.length r c

/-- C1: for same-length input vectors and any `i < n`, the diagonal entry
`(i, i)` of the matrix built by `create_cost_hamiltonian` equals
`signal_timings[i] * traffic_flows[i]`, plus 100 exactly when
`emergency_flags[i]` is true. -/
theorem cost_hamiltonian_diagonal
    (traffic_flows signal_timings : List ℚ) (emergency_flags : List Bool)
    (n i : ℕ) (hfs : traffic_flows.length = n) (hts : signal_timings.length = n)
    (hes : emergency_flags.length = n) (hi : i < n) :
    create_cost_hamiltonian traffic_flows signal_timings emergency_flags i i =
      signal_timings.get ⟨i, by omega⟩ * traffic_flows.get ⟨i, by omega⟩ +
        (if emergency_flags.get ⟨i, by omega⟩ then 100 else 0) := by
  rw [create_cost_hamiltonian_apply]
  rw [if_pos ⟨rfl, by omega⟩]
  unfold costDelta
  rw [List.getD_eq_getElem _ _ (by omega), List.getD_eq_getElem _ _ (by omega),
    List.getD_eq_getElem _ _ (by omega)]
  simp [List.get_eq_getElem]

/-- Witness for C1 at concrete inputs. -/
theorem cost_hamiltonian_diagonal_witness :
    create_cost_hamiltonian [2] [3] [true] 0 0 =
      ([(3 : ℚ)].get ⟨0, by decide⟩ * [(2 : ℚ)].get ⟨0, by decide⟩ +
        (if [true].get ⟨0, by decide⟩ then 100 else 0)) :=
  cost_hamiltonian_diagonal [2] [3] [true] 1 0 rfl rfl rfl (by decide)

/-- C5 counterexample: with the sample inputs, the middle diagonal entry is
not `2500 + 100`: `signal_timings[1] * traffic_flows[1] = 60 * 40 = 2400`, so
with the emergency penalty the entry is `2400 + 100 = 2500`, not `2600`. -/
theorem cost_hamiltonian_sample_not_2600 :
    create_cost_hamiltonian [50, 40, 10] [30, 60, 20] [false, true, false] 1 1 ≠ 2500 + 100 := by
  rw [create_cost_hamiltonian_apply]
  norm_num [costDelta]

/-- C5 (amended): with `traffic_flows = [50, 40, 10]`,
`signal_timings = [30, 60, 20]` and `emergency_flags = [False, True, False]`,
the cost diagonal is `[1500, 2400 + 100, 200]`. -/
theorem cost_hamiltonian_sample_diagonal :
    create_cost_hamiltonian [50, 40, 10] [30, 60, 20] [false, true, false] 0 0 = 1500 ∧
    create_cost_hamiltonian [50, 40, 10] [30, 60, 20] [false, true, false] 1 1 = 2400 + 100 ∧
    create_cost_hamiltonian [50, 40, 10] [30, 60, 20] [false, true, false] 2 2 = 200 := by
  refine ⟨?_, ?_, ?_⟩ <;>
    · rw [create_cost_hamiltonian_apply]
      norm_num [costDelta]

/-- The fixed lookup table `signal_timings = {'0': 20, '1': 30, '2': 60}` used
by `decode_signals`; `none` models absence from the Python dict. -/
def signal_timing_map (bit : Char) : Option ℕ :=
  if bit = '0' then some 20
  else if bit = '1' then some 30
  else if bit = '2' then some 60
  else none

/-- Function `decode_signals` from signal-solver.py: walk the string left to right,
appending the mapped timing of each character, and raise a `ValueError`
(modelled as `Except.error`) at the first character missing from the map.
Python strings are modelled as `List Char`. -/
def decode_signals : List Char → Except String (List ℕ)
  | [] => Except.ok []
  | bit :: rest =>
    match signal_timing_map bit with
    | some t =>
      match decode_signals rest with
      | Except.ok ts => Except.ok (t :: ts)
      | Except.error e => Except.error e
    | none => Except.error ("Unexpected bit " ++ String.mk [bit] ++ " in binary string.")

lemma decode_signals_ok_of_mapped (s : List Char)
    (h : ∀ c ∈ s, c = '0' ∨ c = '1' ∨ c = '2') :
    decode_signals s =
      Except.ok (s.map fun c => if c = '0' then 20 else if c = '1' then 30 else 60) := by
  induction s with
  | nil => rfl
  | cons bit rest ih =>
    have hbit := h bit (List.mem_cons_self bit rest)
    have hrest := ih fun c hc => h c (List.mem_cons_of_mem bit hc)
    unfold decode_signals
    rcases hbit with hb | hb | hb <;> subst hb <;>
      simp [signal_timing_map, hrest]

lemma decode_signals_error_iff (s : List Char) :
    (∃ e, decode_signals s = Except.error e) ↔
      ∃ c ∈ s, ¬ (c = '0' ∨ c = '1' ∨ c = '2') := by
  induction s with
  | nil =>
    constructor
    · rintro ⟨e, he⟩
      exact absurd he (by simp [decode_signals])
    · rintro ⟨c, hc, -⟩
      exact absurd hc (List.not_mem_nil c)
  | cons bit rest ih =>
    constructor
    · rintro ⟨e, he⟩
      by_cases hb : bit = '0' ∨ bit = '1' ∨ bit = '2'
      · have hmap : ∃ t, signal_timing_map bit = some t := by
          rcases hb with hb | hb | hb <;> subst hb <;> simp [signal_timing_map]
        obtain ⟨t, hmap⟩ := hmap
        unfold decode_signals at he
        rw [hmap] at he
        rcases hrest : decode_signals rest with e2 | ts
        · obtain ⟨c, hc, hcn⟩ := ih.mp ⟨e2, hrest⟩
          exact ⟨c, List.mem_cons_of_mem bit hc, hcn⟩
        · rw [hrest] at he
          exact absurd he (by simp)
      · exact ⟨bit, List.mem_cons_self bit rest, hb⟩
    · rintro ⟨c, hc, hcn⟩
      unfold decode_signals
      rcases hmap : signal_timing_map bit with - | t
      · exact ⟨_, rfl⟩
      · have hb : bit = '0' ∨ bit = '1' ∨ bit = '2' := by
          by_contra hb
          push_neg at hb
          obtain ⟨h0, h1, h2⟩ := hb
          simp [signal_timing_map, h0, h1, h2] at hmap
        have hcr : c ∈ rest := by
          rcases List.mem_cons.mp hc with rfl | hcr
          · exact absurd hb hcn
          · exact hcr
        obtain ⟨e2, he2⟩ := ih.mpr ⟨c, hcr, hcn⟩
        rw [he2]
        exact ⟨e2, rfl⟩

/-- C2: `decode_signals` maps each character of an all-`{0,1,2}` string
through `{0 → 20, 1 → 30, 2 → 60}` in order, and returns an uncaught error
exactly when some character lies outside `{0,1,2}`; in particular `"012"`
decodes to `[20, 30, 60]` and `"3"` raises. -/
theorem decode_signals_spec :
    (∀ s : List Char, (∀ c ∈ s, c = '0' ∨ c = '1' ∨ c = '2') →
      decode_signals s =
        Except.ok (s.map fun c => if c = '0' then 20 else if c = '1' then 30 else 60)) ∧
    (∀ s : List Char,
      (∃ e, decode_signals s = Except.error e) ↔
        ∃ c ∈ s, ¬ (c = '0' ∨ c = '1' ∨ c = '2')) ∧
    decode_signals ['0', '1', '2'] = Except.ok [20, 30, 60] ∧
    (∃ e, decode_signals ['3'] = Except.error e) :=
  ⟨decode_signals_ok_of_mapped, decode_signals_error_iff, by rfl, ⟨_, rfl⟩⟩

/-- Witness for C2: the all-mapped branch applied at `"012"`. -/
theorem decode_signals_spec_witness :
    decode_signals ['0', '1', '2'] =
      Except.ok (['0', '1', '2'].map fun c => if c = '0' then 20 else if c = '1' then 30 else 60) :=
  decode_signals_spec.1 ['0', '1', '2'] (by decide)

lemma decode_signals_ok_shape (s : List Char) (l : List ℕ)
    (h : decode_signals s = Except.ok l) :
    l.length = s.length ∧ ∀ x ∈ l, x = 20 ∨ x = 30 ∨ x = 60 := by
  induction s generalizing l with
  | nil =>
    unfold decode_signals at h
    cases h
    exact ⟨rfl, by simp⟩
  | cons bit rest ih =>
    unfold decode_signals at h
    rcases hmap : signal_timing_map bit with - | t <;> rw [hmap] at h
    · exact absurd h (by simp)
    · rcases hrest : decode_signals rest with e | ts <;> rw [hrest] at h
      · exact absurd h (by simp)
      · cases h
        obtain ⟨hlen, hmem⟩ := ih ts hrest
        have ht : t = 20 ∨ t = 30 ∨ t = 60 := by
          unfold signal_timing_map at hmap
          split_ifs at hmap <;> cases hmap <;> simp
        refine ⟨by simp [hlen], ?_⟩
        intro x hx
        rcases List.mem_cons.mp hx with rfl | hx
        · exact ht
        · exact hmem x hx

/-- C10: whenever `decode_signals` returns normally, the result has the same
length as the input and every element is one of 20, 30 or 60; on the empty
string it returns the empty list. -/
theorem decode_signals_ok_length_and_range :
    (∀ (s : List Char) (l : List ℕ), decode_signals s = Except.ok l →
      l.length = s.length ∧ ∀ x ∈ l, x = 20 ∨ x = 30 ∨ x = 60) ∧
    decode_signals [] = Except.ok [] :=
  ⟨decode_signals_ok_shape, rfl⟩

/-- Witness for C10 at `"01"`. -/
theorem decode_signals_ok_length_and_range_witness :
    ([20, 30] : List ℕ).length = (['0', '1'] : List Char).length ∧
      ∀ x ∈ ([20, 30] : List ℕ), x = 20 ∨ x = 30 ∨ x = 60 :=
  decode_signals_ok_length_and_range.1 ['0', '1'] [20, 30] (by rfl)

/-- Function `decode_path` from path-rerouting-solver.py: `for i, bit in
enumerate(binary_string): if bit == '1': path.append(i)`.  (The
`intersection_mapping` dict defined in the Python function is never read.) -/
def decode_path (binary_string : List Char) : List ℕ :=
  binary_string.enum.foldl (fun path p => if p.2 = '1' then path ++ [p.1] else path) []

/-- Closed-form companion of the `decode_path` loop: the indices, counted from
`k`, of the characters equal to `1`. -/
def onesFrom : List Char → ℕ → List ℕ
  | [], _ => []
  | c :: rest, k =>
    if c = '1' then k :: onesFrom rest (k + 1) else onesFrom rest (k + 1)

lemma foldl_append_ones (s : List Char) :
    ∀ (k : ℕ) (acc : List ℕ),
      (List.enumFrom k s).foldl
          (fun path p => if p.2 = '1' then path ++ [p.1] else path) acc =
        acc ++ onesFrom s k := by
  induction s with
  | nil => intro k acc; simp [onesFrom]
  | cons c rest ih =>
    intro k acc
    rw [List.enumFrom_cons, List.foldl_cons]
    by_cases hc : c = '1' <;> simp only [hc, if_true, if_false, ih, onesFrom] <;> simp [hc]

lemma decode_path_eq_onesFrom (s : List Char) : decode_path s = onesFrom s 0 := by
  unfold decode_path
  rw [List.enum, foldl_append_ones]
  simp

lemma mem_onesFrom (s : List Char) :
    ∀ (k i : ℕ), i ∈ onesFrom s k ↔
      ∃ j, ∃ h : j < s.length, i = k + j ∧ s.get ⟨j, h⟩ = '1' := by
  induction s with
  | nil => intro k i; simp [onesFrom]
  | cons c rest ih =>
    intro k i
    unfold onesFrom
    constructor
    · intro hi
      by_cases hc : c = '1'
      · rw [if_pos hc] at hi
        rcases List.mem_cons.mp hi with rfl | hi
        · exact ⟨0, by simp, by omega, hc⟩
        · obtain ⟨j, hj, hij, hs⟩ := (ih (k + 1) i).mp hi
          exact ⟨j + 1, by simpa using hj, by omega, hs⟩
      · rw [if_neg hc] at hi
        obtain ⟨j, hj, hij, hs⟩ := (ih (k + 1) i).mp hi
        exact ⟨j + 1, by simpa using hj, by omega, hs⟩
    · rintro ⟨j, hj, rfl, hs⟩
      cases j with
      | zero =>
        simp only [List.get] at hs
        simp [hs]
      | succ j =>
        have hj2 : j < rest.length := by simpa using hj
        have hmem : k + (j + 1) ∈ onesFrom rest (k + 1) :=
          (ih (k + 1) (k + (j + 1))).mpr ⟨j, hj2, by omega, hs⟩
        by_cases hc : c = '1' <;> simp [hc, hmem]

lemma onesFrom_lower_bound (s : List Char) :
    ∀ (k i : ℕ), i ∈ onesFrom s k → k ≤ i := by
  induction s with
  | nil => intro k i hi; exact absurd hi (List.not_mem_nil i)
  | cons c rest ih =>
    intro k i hi
    unfold onesFrom at hi
    by_cases hc : c = '1'
    · rw [if_pos hc] at hi
      rcases List.mem_cons.mp hi with rfl | hi
      · exact le_refl i
      · exact le_trans (by omega) (ih (k + 1) i hi)
    · rw [if_neg hc] at hi
      exact le_trans (by omega) (ih (k + 1) i hi)

lemma onesFrom_pairwise (s : List Char) :
    ∀ k : ℕ, List.Pairwise (fun a b => a < b) (onesFrom s k) := by
  induction s with
  | nil => intro k; simp [onesFrom]
  | cons c rest ih =>
    intro k
    unfold onesFrom
    by_cases hc : c = '1'
    · rw [if_pos hc]
      refine List.Pairwise.cons ?_ (ih (k + 1))
      intro b hb
      exact lt_of_lt_of_le (by omega) (onesFrom_lower_bound rest (k + 1) b hb)
    · rw [if_neg hc]
      exact ih (k + 1)

/-- C3: `decode_path` returns exactly the indices whose character is `'1'`, in
strictly increasing index order; in particular `"000"` yields `[]` and
`"101"` yields `[0, 2]`. -/
theorem decode_path_spec :
    (∀ (s : List Char) (i : ℕ),
      i ∈ decode_path s ↔ ∃ h : i < s.length, s.get ⟨i, h⟩ = '1') ∧
    (∀ s : List Char, List.Pairwise (fun a b => a < b) (decode_path s)) ∧
    decode_path ['0', '0', '0'] = [] ∧
    decode_path ['1', '0', '1'] = [0, 2] := by
  refine ⟨?_, ?_, by rfl, by rfl⟩
  · intro s i
    rw [decode_path_eq_onesFrom, mem_onesFrom]
    constructor
    · rintro ⟨j, hj, hij, hs⟩
      exact ⟨by omega, by subst hij; simpa using hs⟩
    · rintro ⟨h, hs⟩
      exact ⟨i, h, by omega, hs⟩
  · intro s
    rw [decode_path_eq_onesFrom]
    exact onesFrom_pairwise s 0

/-- Witness for C3: the membership characterization at `"101"` and index 0. -/
theorem decode_path_spec_witness :
    0 ∈ decode_path ['1', '0', '1'] ↔
      ∃ h : 0 < (['1', '0', '1'] : List Char).length,
        (['1', '0', '1'] : List Char).get ⟨0, h⟩ = '1' :=
  decode_path_spec.1 ['1', '0', '1'] 0

/-- The hardcoded 3x3 distance matrix of path-rerouting-solver.py (km),
read as zero outside its 3x3 extent (accesses beyond it would fail in the
program, so theorems about it carry in-bounds hypotheses). -/
def distances (i j : ℕ) : ℚ :=
  (([[0, 1, 2], [1, 0, 1], [2, 1, 0]] : List (List ℚ)).getD i []).getD j 0

/-- The hardcoded vehicle speed (km/h). -/
def vehicle_speed : ℚ := 40

/-- Function `calculate_travel_time` from path-rerouting-solver.py: convert distance
to travel time in minutes at the given speed. -/
def calculate_travel_time (distance speed : ℚ) : ℚ :=
  let speed_km_per_min := speed / 60
  distance / speed_km_per_min

/-- One iteration of the inner `for j in range(n)` loop of
`create_path_cost_hamiltonian`: for `j ≠ start`, add the travel time from
`i` to `j` at entry `(i, j)`. -/
def pathInnerStep (start i : ℕ) (M : ℕ → ℕ → ℚ) (j : ℕ) : ℕ → ℕ → ℚ :=
  if j ≠ start then
    fun r c =>
      if r = i ∧ c = j then M r c + calculate_travel_time (distances i j) vehicle_speed
      else M r c
  else M

/-- One iteration of the outer `for i in range(n)` loop of
`create_path_cost_hamiltonian`: only `i = start` writes anything — the
waiting time at the diagonal, then the travel times along row `i`. -/
def pathStep (n start : ℕ) (traffic_flows signal_timings : List ℚ)
    (M : ℕ → ℕ → ℚ) (i : ℕ) : ℕ → ℕ → ℚ :=
  if i = start then
    let waiting_time := signal_timings.getD i 0 * traffic_flows.getD i 0
    let M1 : ℕ → ℕ → ℚ := fun r c => if r = i ∧ c = i then M r c + waiting_time else M r c
    (List.range n).foldl (pathInnerStep start i) M1
  else M

/-- Function `create_path_cost_hamiltonian` from path-rerouting-solver.py.  The
parameters `endNode` (Python `end`) and `emergency_flags` are accepted but
never read, exactly as in the source. -/
def create_path_cost_hamiltonian (start endNode : ℕ)
    (traffic_flows signal_timings : List ℚ) (emergency_flags : List Bool) :
    ℕ → ℕ → ℚ :=
  (List.range traffic_flows.length).foldl
    (pathStep traffic_flows.length start traffic_flows signal_timings) (fun _ _ => 0)

lemma pathInnerStep_apply (start i : ℕ) (M : ℕ → ℕ → ℚ) (j r c : ℕ) :
    pathInnerStep start i M j r c =
      if j ≠ start ∧ r = i ∧ c = j then
        M r c + calculate_travel_time (distances i j) vehicle_speed
      else M r c := by
  unfold pathInnerStep
  rw [apply_ite (fun F : ℕ → ℕ → ℚ => F r c)]
  split_ifs <;> first | rfl | tauto

lemma pathInnerStep_foldl (start i m : ℕ) (M1 : ℕ → ℕ → ℚ) (r c : ℕ) :
    (List.range m).foldl (pathInnerStep start i) M1 r c =
      M1 r c +
        (if r = i ∧ c ≠ start ∧ c < m then
          calculate_travel_time (distances i c) vehicle_speed else 0) := by
  induction m with
  | zero => simp
  | succ m ih =>
    rw [List.range_succ, List.foldl_append, List.foldl_cons, List.foldl_nil,
      pathInnerStep_apply, ih]
    by_cases h1 : m ≠ start ∧ r = i ∧ c = m
    · rw [if_pos h1]
      obtain ⟨hm, hr, hc⟩ := h1
      rw [hr, hc]
      rw [if_neg (show ¬ (i = i ∧ m ≠ start ∧ m < m) from by omega),
        if_pos (show i = i ∧ m ≠ start ∧ m < m + 1 from ⟨rfl, hm, by omega⟩)]
      ring
    · rw [if_neg h1]
      by_cases h2 : r = i ∧ c ≠ start ∧ c < m + 1
      · have h3 : r = i ∧ c ≠ start ∧ c < m := by
          obtain ⟨ha, hb, hcc⟩ := h2
          refine ⟨ha, hb, ?_⟩
          rcases Nat.lt_succ_iff_lt_or_eq.mp hcc with h4 | h4
          · exact h4
          · exact absurd ⟨show m ≠ start by omega, ha, h4⟩ h1
        rw [if_pos h2, if_pos h3]
      · have h3 : ¬ (r = i ∧ c ≠ start ∧ c < m) :=
          fun h4 => h2 ⟨h4.1, h4.2.1, by omega⟩
        rw [if_neg h2, if_neg h3]

lemma pathStep_skip (n start : ℕ) (fs ts : List ℚ) (M : ℕ → ℕ → ℚ) (i : ℕ)
    (hi : i ≠ start) : pathStep n start fs ts M i = M := by
  unfold pathStep
  rw [if_neg hi]

lemma path_foldl_below (n start k : ℕ) (fs ts : List ℚ) (hk : k ≤ start) :
    (List.range k).foldl (pathStep n start fs ts) (fun _ _ => 0) =
      (fun _ _ => 0) := by
  induction k with
  | zero => simp
  | succ k ih =>
    rw [List.range_succ, List.foldl_append, List.foldl_cons, List.foldl_nil,
      ih (by omega), pathStep_skip]
    omega

lemma path_foldl_above (n start k : ℕ) (fs ts : List ℚ) (hk : start < k) :
    (List.range k).foldl (pathStep n start fs ts) (fun _ _ => 0) =
      pathStep n start fs ts (fun _ _ => 0) start := by
  induction k with
  | zero => omega
  | succ k ih =>
    rw [List.range_succ, List.foldl_append, List.foldl_cons, List.foldl_nil]
    rcases Nat.lt_succ_iff_lt_or_eq.mp hk with h | h
    · rw [ih h, pathStep_skip]
      omega
    · subst h
      rw [path_foldl_below n start start fs ts (le_refl start)]

lemma create_path_cost_hamiltonian_apply (start endNode : ℕ)
    (fs ts : List ℚ) (es : List Bool) (hstart : start < fs.length) (r c : ℕ) :
    create_path_cost_hamiltonian start endNode fs ts es r c =
      (if r = start ∧ c = start then ts.getD start 0 * fs.getD start 0 else 0) +
        (if r = start ∧ c ≠ start ∧ c < fs.length then
          calculate_travel_time (distances start c) vehicle_speed else 0) := by
  unfold create_path_cost_hamiltonian
  rw [path_foldl_above fs.length start fs.length fs ts hstart]
  unfold pathStep
  rw [if_pos rfl]
  rw [pathInnerStep_foldl]
  split_ifs <;> ring

/-- C4: for same-length inputs, `start < n` and `n` within the 3x3 hardcoded
distance matrix, the matrix built by `create_path_cost_hamiltonian` is zero
outside row `start`; in row `start` its diagonal entry is
`signal_timings[start] * traffic_flows[start]`, each entry `(start, j)` with
`j < n`, `j ≠ start` is `distances[start][j] / (40 / 60)` (minutes at 40
km/h), and the rest of the row is zero. -/
theorem path_cost_hamiltonian_spec (start endNode n : ℕ)
    (fs ts : List ℚ) (es : List Bool)
    (hfs : fs.length = n) (hts : ts.length = n) (hes : es.length = n)
    (hstart : start < n) (hn : n ≤ 3) :
    create_path_cost_hamiltonian start endNode fs ts es start start =
      ts.get ⟨start, by omega⟩ * fs.get ⟨start, by omega⟩ ∧
    (∀ j, j < n → j ≠ start →
      create_path_cost_hamiltonian start endNode fs ts es start j =
        distances start j / (40 / 60)) ∧
    (∀ r c, r ≠ start →
      create_path_cost_hamiltonian start endNode fs ts es r c = 0) ∧
    (∀ c, n ≤ c →
      create_path_cost_hamiltonian start endNode fs ts es start c = 0) := by
  have hst : start < fs.length := by omega
  refine ⟨?_, ?_, ?_, ?_⟩
  · rw [create_path_cost_hamiltonian_apply start endNode fs ts es hst]
    have h2 : ¬ (start = start ∧ start ≠ start ∧ start < fs.length) := by simp
    rw [if_pos (show start = start ∧ start = start from ⟨rfl, rfl⟩), if_neg h2,
      List.getD_eq_getElem _ _ (by omega), List.getD_eq_getElem _ _ (by omega)]
    simp [List.get_eq_getElem]
  · intro j hj hjs
    rw [create_path_cost_hamiltonian_apply start endNode fs ts es hst]
    have h1 : ¬ (start = start ∧ j = start) := by simp [hjs]
    rw [if_neg h1,
      if_pos (show start = start ∧ j ≠ start ∧ j < fs.length from ⟨rfl, hjs, by omega⟩)]
    unfold calculate_travel_time vehicle_speed
    ring
  · intro r c hr
    rw [create_path_cost_hamiltonian_apply start endNode fs ts es hst]
    have h1 : ¬ (r = start ∧ c = start) := fun h => hr h.1
    have h2 : ¬ (r = start ∧ c ≠ start ∧ c < fs.length) := fun h => hr h.1
    rw [if_neg h1, if_neg h2]
    ring
  · intro c hc
    rw [create_path_cost_hamiltonian_apply start endNode fs ts es hst]
    have h1 : ¬ (start = start ∧ c = start) := by
      rintro ⟨-, rfl⟩; omega
    have h2 : ¬ (start = start ∧ c ≠ start ∧ c < fs.length) := by
      rintro ⟨-, -, h⟩; omega
    rw [if_neg h1, if_neg h2]
    ring

/-- Witness for C4 at the sample inputs of the script. -/
theorem path_cost_hamiltonian_spec_witness :
    create_path_cost_hamiltonian 0 2 [1, 0, 0] [30, 60, 20] [false, true, false] 0 0 =
      ([(30 : ℚ), 60, 20].get ⟨0, by decide⟩ * [(1 : ℚ), 0, 0].get ⟨0, by decide⟩) ∧
    (∀ j, j < 3 → j ≠ 0 →
      create_path_cost_hamiltonian 0 2 [1, 0, 0] [30, 60, 20] [false, true, false] 0 j =
        distances 0 j / (40 / 60)) ∧
    (∀ r c, r ≠ 0 →
      create_path_cost_hamiltonian 0 2 [1, 0, 0] [30, 60, 20] [false, true, false] r c = 0) ∧
    (∀ c, 3 ≤ c →
      create_path_cost_hamiltonian 0 2 [1, 0, 0] [30, 60, 20] [false, true, false] 0 c = 0) :=
  path_cost_hamiltonian_spec 0 2 3 [1, 0, 0] [30, 60, 20] [false, true, false]
    rfl rfl rfl (by omega) (by omega)

/-- C8: `calculate_travel_time` is linear in distance for every fixed nonzero
speed, and concretely returns `distance / (speed / 60)`, the travel time in
minutes. -/
theorem calculate_travel_time_linear (d s : ℚ) (hs : s ≠ 0) :
    calculate_travel_time (2 * d) s = 2 * calculate_travel_time d s ∧
      calculate_travel_time d s = d / (s / 60) := by
  unfold calculate_travel_time
  constructor
  · field_simp
    ring
  · rfl

/-- Witness for C8 at distance 3 km and speed 40 km/h. -/
theorem calculate_travel_time_linear_witness :
    calculate_travel_time (2 * 3) 40 = 2 * calculate_travel_time 3 40 ∧
      calculate_travel_time 3 40 = 3 / (40 / 60) :=
  calculate_travel_time_linear 3 40 (by norm_num)

/-- C9: `create_path_cost_hamiltonian` never reads its `end` node or its
`emergency_flags`: two calls agreeing on `start`, `traffic_flows` and
`signal_timings` return the same matrix. -/
theorem path_cost_hamiltonian_ignores_end_and_flags
    (start e1 e2 : ℕ) (fs ts : List ℚ) (es1 es2 : List Bool) :
    create_path_cost_hamiltonian start e1 fs ts es1 =
      create_path_cost_hamiltonian start e2 fs ts es2 := rfl

/-- Abstract gates appended to the quantum circuit.  `rxHalfPi q` stands for
the mixing rotation `rx(pi / 2, q)` — its angle is the literal constant
`np.pi / 2` in both scripts, so it needs no numeric field. -/
inductive Gate : Type
  | had : ℕ → Gate
  | rz : ℚ → ℕ → Gate
  | rxHalfPi : ℕ → Gate
  | measureAll : Gate
  deriving DecidableEq, Repr

/-- The circuit-construction stage shared verbatim by
`qaoa_traffic_optimization` and `qaoa_path_optimization`: Hadamards on all
`n` qubits, then `p` layers each appending, per qubit `i`, an RZ by the
diagonal cost entry `(i, i)` and an RX by the constant `pi / 2`, then a
final measurement of all qubits. -/
def qaoa_gates (n p : ℕ) (cost_hamiltonian : ℕ → ℕ → ℚ) : List Gate :=
  let afterLayers :=
    (List.range p).foldl
      (fun acc _ =>
        (List.range n).foldl
          (fun a i => a ++ [Gate.rz (cost_hamiltonian i i) i, Gate.rxHalfPi i]) acc)
      ((List.range n).map Gate.had)
  afterLayers ++ [Gate.measureAll]

/-- C7: the gate sequence depends only on the diagonal of the cost matrix —
two cost matrices agreeing on entries `(i, i)` for `i < n` yield identical
circuits, so off-diagonal entries are never consulted. -/
theorem qaoa_gates_depend_only_on_diagonal (n p : ℕ) (H1 H2 : ℕ → ℕ → ℚ)
    (h : ∀ i, i < n → H1 i i = H2 i i) :
    qaoa_gates n p H1 = qaoa_gates n p H2 := by
  unfold qaoa_gates
  have hinner : ∀ acc : List Gate,
      (List.range n).foldl
          (fun a i => a ++ [Gate.rz (H1 i i) i, Gate.rxHalfPi i]) acc =
        (List.range n).foldl
          (fun a i => a ++ [Gate.rz (H2 i i) i, Gate.rxHalfPi i]) acc := by
    intro acc
    apply List.foldl_ext
    intro a i hi
    rw [h i (List.mem_range.mp hi)]
  have houter :
      (List.range p).foldl
          (fun acc _ => (List.range n).foldl
            (fun a i => a ++ [Gate.rz (H1 i i) i, Gate.rxHalfPi i]) acc)
          ((List.range n).map Gate.had) =
        (List.range p).foldl
          (fun acc _ => (List.range n).foldl
            (fun a i => a ++ [Gate.rz (H2 i i) i, Gate.rxHalfPi i]) acc)
          ((List.range n).map Gate.had) := by
    apply List.foldl_ext
    intro acc _ _
    exact hinner acc
  rw [houter]

/-- Witness for C7: two matrices that differ off the diagonal but agree on
it produce the same circuit. -/
theorem qaoa_gates_depend_only_on_diagonal_witness :
    qaoa_gates 2 1 (fun r c => if r = c then (r : ℚ) else 5) =
      qaoa_gates 2 1 (fun r c => if r = c then (r : ℚ) else 7) :=
  qaoa_gates_depend_only_on_diagonal 2 1 _ _ (by intro i hi; simp)

/-- Python `max(list(counts.values()))`: the maximum of a nonempty list,
computed as a left fold of `max` over the tail starting from the head;
`none` models the `ValueError` Python raises on an empty list. -/
def values_max : List ℕ → Option ℕ
  | [] => none
  | v :: vs => some (vs.foldl max v)

/-- The `for i in counts: if counts[i] == m: ...; break` scan of both
`__main__` blocks: the key of the first entry whose count equals `m`.
The Python dict is modelled as an insertion-ordered association list with
distinct keys. -/
def first_key_with_count (m : ℕ) : List (String × ℕ) → Option String
  | [] => none
  | kv :: rest => if kv.2 = m then some kv.1 else first_key_with_count m rest

/-- The selection stage of both `__main__` blocks: compute the maximum count,
then return the first key attaining it. -/
def select_optimum (counts : List (String × ℕ)) : Option String :=
  match values_max (counts.map Prod.snd) with
  | none => none
  | some m => first_key_with_count m counts

lemma le_foldl_max (l : List ℕ) (a : ℕ) : a ≤ l.foldl max a := by
  induction l generalizing a with
  | nil => exact le_refl a
  | cons x l ih => exact le_trans (le_max_left a x) (ih (max a x))

lemma mem_le_foldl_max (l : List ℕ) : ∀ (a x : ℕ), x ∈ l → x ≤ l.foldl max a := by
  induction l with
  | nil => intro a x hx; exact absurd hx (List.not_mem_nil x)
  | cons y l ih =>
    intro a x hx
    rcases List.mem_cons.mp hx with rfl | hx2
    · exact le_trans (le_max_right a x) (le_foldl_max l (max a x))
    · exact ih (max a y) x hx2

lemma foldl_max_mem (l : List ℕ) (a : ℕ) : l.foldl max a = a ∨ l.foldl max a ∈ l := by
  induction l generalizing a with
  | nil => exact Or.inl rfl
  | cons x l ih =>
    rcases ih (max a x) with h | h
    · rcases max_choice a x with h2 | h2
      · exact Or.inl (by rw [List.foldl_cons, h, h2])
      · refine Or.inr ?_
        rw [List.foldl_cons, h, h2]
        exact List.mem_cons_self x l
    · exact Or.inr (List.mem_cons_of_mem x h)

lemma first_key_with_count_split (m : ℕ) (l : List (String × ℕ))
    (h : ∃ kv ∈ l, kv.2 = m) :
    ∃ pre kv post, l = pre ++ kv :: post ∧ kv.2 = m ∧
      (∀ q ∈ pre, q.2 ≠ m) ∧ first_key_with_count m l = some kv.1 := by
  induction l with
  | nil =>
    obtain ⟨kv, hkv, -⟩ := h
    exact absurd hkv (List.not_mem_nil kv)
  | cons kv0 rest ih =>
    by_cases h0 : kv0.2 = m
    · refine ⟨[], kv0, rest, by simp, h0, by simp, ?_⟩
      unfold first_key_with_count
      rw [if_pos h0]
    · have hrest : ∃ kv ∈ rest, kv.2 = m := by
        obtain ⟨kv, hkv, hm⟩ := h
        rcases List.mem_cons.mp hkv with rfl | hkv2
        · exact absurd hm h0
        · exact ⟨kv, hkv2, hm⟩
      obtain ⟨pre, kv, post, hsplit, hm, hpre, hfind⟩ := ih hrest
      refine ⟨kv0 :: pre, kv, post, by rw [hsplit]; rfl, hm, ?_, ?_⟩
      · intro q hq
        rcases List.mem_cons.mp hq with rfl | hq2
        · exact h0
        · exact hpre q hq2
      · unfold first_key_with_count
        rw [if_neg h0]
        exact hfind

/-- C6: for a nonempty frequency mapping, the selection stage returns the key
of the first entry (in insertion order) whose count equals the maximum count:
some entry `kv` is selected, every count is at most `kv`'s, and every entry
before `kv` has a strictly smaller count. -/
theorem select_optimum_first_max (counts : List (String × ℕ)) (h : counts ≠ []) :
    ∃ pre kv post, counts = pre ++ kv :: post ∧
      select_optimum counts = some kv.1 ∧
      (∀ q ∈ counts, q.2 ≤ kv.2) ∧
      (∀ q ∈ pre, q.2 < kv.2) := by
  obtain ⟨c0, rest, rfl⟩ := List.exists_cons_of_ne_nil h
  set m := (rest.map Prod.snd).foldl max c0.2 with hm
  have hvm : values_max ((c0 :: rest).map Prod.snd) = some m := by
    rw [List.map_cons]
    rfl
  have hle : ∀ q ∈ c0 :: rest, q.2 ≤ m := by
    intro q hq
    rcases List.mem_cons.mp hq with rfl | hq2
    · exact le_foldl_max _ _
    · exact mem_le_foldl_max _ _ _ (List.mem_map_of_mem Prod.snd hq2)
  have hattained : ∃ kv ∈ c0 :: rest, kv.2 = m := by
    rcases foldl_max_mem (rest.map Prod.snd) c0.2 with h2 | h2
    · exact ⟨c0, List.mem_cons_self c0 rest, h2.symm⟩
    · obtain ⟨kv, hkv, hkv2⟩ := List.mem_map.mp h2
      exact ⟨kv, List.mem_cons_of_mem c0 hkv, hkv2⟩
  obtain ⟨pre, kv, post, hsplit, hkvm, hpre, hfind⟩ :=
    first_key_with_count_split m (c0 :: rest) hattained
  refine ⟨pre, kv, post, hsplit, ?_, ?_, ?_⟩
  · unfold select_optimum
    rw [hvm]
    exact hfind
  · intro q hq
    rw [hkvm]
    exact hle q hq
  · intro q hq
    have hqmem : q ∈ c0 :: rest := by
      rw [hsplit]
      exact List.mem_append_left _ hq
    exact lt_of_le_of_ne (hkvm ▸ hle q hqmem) (hkvm ▸ hpre q hq)

/-- Witness for C6: with counts `[("00", 3), ("01", 5), ("10", 5)]` the
selection picks `"01"`, the first key attaining the maximum count 5. -/
theorem select_optimum_first_max_witness :
    ∃ pre kv post,
      ([("00", 3), ("01", 5), ("10", 5)] : List (String × ℕ)) = pre ++ kv :: post ∧
      select_optimum [("00", 3), ("01", 5), ("10", 5)] = some kv.1 ∧
      (∀ q ∈ ([("00", 3), ("01", 5), ("10", 5)] : List (String × ℕ)), q.2 ≤ kv.2) ∧
      (∀ q ∈ pre, q.2 < kv.2) :=
  select_optimum_first_max [("00", 3), ("01", 5), ("10", 5)] (by simp)

end TrafficQAOA
